import Mathlib

/-
Verification of the pdf-to-audio converter (src/pdf_to_audio.py).

The program is a thin orchestration layer over external services (PDF text
extraction, speech synthesis, audio encoding).  We embed it shallowly:

* a PDF page is modelled by the observable behaviour of the external calls
  made for it: the outcome of `page.extract_text()` (a string, or a raised
  exception), the outcome of `tts.save(...)` for its synthesized fragment,
  and the outcome of `AudioSegment.from_mp3(...)` on that fragment's
  temporary file;
* a parsed PDF is the outcome of `PdfReader(input_file)` / `reader.pages`:
  either a raised exception or the list of pages;
* Python strings are `List Char`; `str.strip`, `str.lower`, `str.endswith`,
  `os.path.splitext`, `os.path.basename`, `os.path.join` are translated
  from their CPython (posixpath) definitions;
* raised exceptions are the `.error` branch of `Except String`;
* the destination file's state is tracked explicitly (`FileState`), so that
  "no output file is written on early failure" is provable.
-/

namespace PdfToAudio

/-- Raised exceptions compare by message; results by payload. -/
instance {ε α : Type} [DecidableEq ε] [DecidableEq α] : DecidableEq (Except ε α)
  | .error a, .error b =>
    if h : a = b then .isTrue (by rw [h])
    else .isFalse (by intro hc; cases hc; exact h rfl)
  | .error _, .ok _ => .isFalse (by intro h; cases h)
  | .ok _, .error _ => .isFalse (by intro h; cases h)
  | .ok a, .ok b =>
    if h : a = b then .isTrue (by rw [h])
    else .isFalse (by intro hc; cases hc; exact h rfl)

/-- Observable behaviour of one PDF page: the result of
`page.extract_text()`, of `tts.save` for that page's fragment (consulted
only when the stripped text is non-empty), and of
`AudioSegment.from_mp3` on the fragment's temporary file (consulted only
during the combining loop). -/
structure Page where
  extract : Except String (List Char)
  synth : Except String Unit
  decode : Except String Unit
deriving DecidableEq

/-- A temporary page-audio fragment: `page_{i+1}.mp3` written by
`tts.save`.  `pageNo` is the 1-based page number `i+1` from the source,
`text` the synthesized text, `decode` the behaviour of reading the file
back with `AudioSegment.from_mp3`. -/
structure Frag where
  pageNo : Nat
  text : List Char
  decode : Except String Unit
deriving DecidableEq

/-- State of the destination file after `pdf_to_audio` returns: never
written, written with the given concatenated audio (a list of page
fragments, each a page number with its text), or left in an unspecified
state because `combined.export` itself raised mid-write. -/
inductive FileState where
  | absent
  | corrupt
  | content (audio : List (Nat × List Char))
deriving DecidableEq

/-- CPython `str.strip()`: drop whitespace from both ends. -/
def pyStrip (s : List Char) : List Char :=
  ((s.dropWhile Char.isWhitespace).reverse.dropWhile Char.isWhitespace).reverse

/-- The loop condition `if text.strip():` — the stripped text is non-empty. -/
def nonBlank (s : List Char) : Bool :=
  pyStrip s != []

/-- The page loop of `pdf_to_audio` (lines 30-39): for each page in order,
extract text; when the stripped text is non-empty, synthesize it to the
temporary file `page_{i+1}.mp3` and append that file to
`temp_audio_files`.  Any raised exception aborts the loop and propagates.
`i` is the 0-based index of the first page of the remaining list. -/
def pageLoop : List Page → Nat → Except String (List Frag)
  | [], _ => .ok []
  | p :: rest, i =>
    match p.extract with
    | .error e => .error e
    | .ok text =>
      if nonBlank text then
        match p.synth with
        | .error e => .error e
        | .ok _ =>
          match pageLoop rest (i + 1) with
          | .error e => .error e
          | .ok frags => .ok (⟨i + 1, text, p.decode⟩ :: frags)
      else
        pageLoop rest (i + 1)

/-- The combining loop of `pdf_to_audio` (lines 41-47):
`combined = AudioSegment.empty()` then `combined += AudioSegment.from_mp3(f)`
for each temporary file in list order.  A raised decode exception aborts
the loop and propagates. -/
def combineLoop : List Frag → Except String (List (Nat × List Char))
  | [] => .ok []
  | f :: rest =>
    match f.decode with
    | .error e => .error e
    | .ok _ =>
      match combineLoop rest with
      | .error e => .error e
      | .ok tail => .ok ((f.pageNo, f.text) :: tail)

/-- The body of the `try:` block of `pdf_to_audio` (lines 18-54): parse,
run the page loop, and if at least one fragment was produced, combine the
fragments and export to the destination.  Returns the `return` value (or
the raised exception) together with the destination file's state; the
destination is touched only by the final `combined.export` call, which on
its own failure may leave the file corrupt. -/
def convBody (parse : Except String (List Page)) (exportB : Except String Unit) :
    Except String Bool × FileState :=
  match parse with
  | .error e => (.error e, .absent)
  | .ok pages =>
    match pageLoop pages 0 with
    | .error e => (.error e, .absent)
    | .ok frags =>
      if frags.isEmpty then
        (.ok false, .absent)
      else
        match combineLoop frags with
        | .error e => (.error e, .absent)
        | .ok combined =>
          match exportB with
          | .error e => (.error e, .corrupt)
          | .ok _ => (.ok true, .content combined)

/-- `pdf_to_audio` (lines 17-58): the `try:` body wrapped in
`except Exception: ... return False`.  Total — it always returns a
boolean and a file state, never an exception. -/
def pdf_to_audio (parse : Except String (List Page)) (exportB : Except String Unit) :
    Bool × FileState :=
  match convBody parse exportB with
  | (.ok b, fs) => (b, fs)
  | (.error _, fs) => (false, fs)

/-- A page on which every external call succeeds and extraction yields
text `t`. -/
def okPage (t : List Char) : Page :=
  ⟨.ok t, .ok (), .ok ()⟩

/-- The fragment list the page loop is expected to produce for extracted
page texts `texts`, the first page having 0-based index `i`: one fragment
per non-blank page, numbered by 1-based page number, in page order. -/
def fragsFrom : List (List Char) → Nat → List Frag
  | [], _ => []
  | t :: rest, i =>
    if nonBlank t then ⟨i + 1, t, .ok ()⟩ :: fragsFrom rest (i + 1)
    else fragsFrom rest (i + 1)

/-- The concatenated audio expected in the destination file: one
(page number, text) entry per non-blank page, in page order. -/
def orderedAudio : List (List Char) → Nat → List (Nat × List Char)
  | [], _ => []
  | t :: rest, i =>
    if nonBlank t then (i + 1, t) :: orderedAudio rest (i + 1)
    else orderedAudio rest (i + 1)

theorem pageLoop_okPages (texts : List (List Char)) (i : Nat) :
    pageLoop (texts.map okPage) i = .ok (fragsFrom texts i) := by
  induction texts generalizing i with
  | nil => rfl
  | cons t rest ih =>
    simp only [List.map_cons, pageLoop, okPage, fragsFrom]
    by_cases h : nonBlank t
    · simp [h, ih]
    · simp [h, ih]

theorem combineLoop_fragsFrom (texts : List (List Char)) (i : Nat) :
    combineLoop (fragsFrom texts i) = .ok (orderedAudio texts i) := by
  induction texts generalizing i with
  | nil => rfl
  | cons t rest ih =>
    simp only [fragsFrom, orderedAudio]
    by_cases h : nonBlank t
    · simp [h, combineLoop, ih]
    · simp [h, ih]

theorem orderedAudio_map_snd (texts : List (List Char)) (i : Nat) :
    (orderedAudio texts i).map Prod.snd = texts.filter nonBlank := by
  induction texts generalizing i with
  | nil => rfl
  | cons t rest ih =>
    simp only [orderedAudio]
    by_cases h : nonBlank t
    · simp [h, List.filter_cons, ih]
    · simp [h, List.filter_cons, ih]

theorem orderedAudio_lb (texts : List (List Char)) (i : Nat) :
    ∀ p ∈ orderedAudio texts i, i + 1 ≤ p.1 := by
  induction texts generalizing i with
  | nil => intro p hp; simp [orderedAudio] at hp
  | cons t rest ih =>
    intro p hp
    simp only [orderedAudio] at hp
    by_cases h : nonBlank t
    · simp [h] at hp
      rcases hp with hp | hp
      · simp [hp]
      · have := ih (i + 1) p hp
        omega
    · simp [h] at hp
      have := ih (i + 1) p hp
      omega

theorem orderedAudio_chain (texts : List (List Char)) (i : Nat) :
    List.Chain' (fun a b => a.1 < b.1) (orderedAudio texts i) := by
  induction texts generalizing i with
  | nil => exact List.chain'_nil
  | cons t rest ih =>
    simp only [orderedAudio]
    by_cases h : nonBlank t
    · simp only [h, if_true]
      rw [List.chain'_cons']
      refine ⟨?_, ih (i + 1)⟩
      intro y hy
      have hmem : y ∈ orderedAudio rest (i + 1) := List.mem_of_mem_head? hy
      have := orderedAudio_lb rest (i + 1) y hmem
      omega
    · simpa [h] using ih (i + 1)

theorem orderedAudio_ne_nil (texts : List (List Char)) (i : Nat)
    (h : texts.any nonBlank = true) : orderedAudio texts i ≠ [] := by
  induction texts generalizing i with
  | nil => simp at h
  | cons t rest ih =>
    simp only [List.any_cons, Bool.or_eq_true] at h
    simp only [orderedAudio]
    by_cases ht : nonBlank t
    · simp [ht]
    · rcases h with h | h
      · exact absurd h ht
      · simpa [ht] using ih i.succ h

theorem fragsFrom_eq_nil (texts : List (List Char)) (i : Nat)
    (h : ∀ t ∈ texts, nonBlank t = false) : fragsFrom texts i = [] := by
  induction texts generalizing i with
  | nil => rfl
  | cons t rest ih =>
    simp only [fragsFrom]
    rw [h t (List.mem_cons_self t rest)]
    simp only [if_false, Bool.false_eq_true]
    exact ih (i + 1) fun u hu => h u (List.mem_cons_of_mem t hu)

theorem fragsFrom_ne_nil (texts : List (List Char)) (i : Nat)
    (h : texts.any nonBlank = true) : fragsFrom texts i ≠ [] := by
  induction texts generalizing i with
  | nil => simp at h
  | cons t rest ih =>
    simp only [List.any_cons, Bool.or_eq_true] at h
    simp only [fragsFrom]
    by_cases ht : nonBlank t
    · simp [ht]
    · rcases h with h | h
      · exact absurd h ht
      · simpa [ht] using ih i.succ h

theorem orderedAudio_length_all (texts : List (List Char)) (i : Nat)
    (h : ∀ t ∈ texts, nonBlank t = true) :
    (orderedAudio texts i).length = texts.length := by
  induction texts generalizing i with
  | nil => rfl
  | cons t rest ih =>
    simp only [orderedAudio]
    rw [h t (List.mem_cons_self t rest)]
    simp only [if_true, List.length_cons]
    rw [ih (i + 1) fun u hu => h u (List.mem_cons_of_mem t hu)]

/-- C1: when parsing, extraction, synthesis, decoding and export all
succeed, `pdf_to_audio` writes to the destination exactly one fragment
per page with non-blank stripped text (so all-non-blank pages of an
N-page PDF give N fragments), no fragment for blank pages, concatenated
in strictly ascending page order. -/
theorem c1_one_fragment_per_nonblank_page_in_order (texts : List (List Char))
    (h : texts.any nonBlank = true) :
    pdf_to_audio (.ok (texts.map okPage)) (.ok ()) =
      (true, .content (orderedAudio texts 0))
    ∧ (orderedAudio texts 0).map Prod.snd = texts.filter nonBlank
    ∧ List.Chain' (fun a b => a.1 < b.1) (orderedAudio texts 0)
    ∧ ((∀ t ∈ texts, nonBlank t = true) →
        (orderedAudio texts 0).length = texts.length) := by
  refine ⟨?_, orderedAudio_map_snd texts 0, orderedAudio_chain texts 0,
    orderedAudio_length_all texts 0⟩
  have hne : fragsFrom texts 0 ≠ [] := fragsFrom_ne_nil texts 0 h
  have hfe : (fragsFrom texts 0).isEmpty = false := by
    cases hf : fragsFrom texts 0 with
    | nil => exact absurd hf hne
    | cons a l => rfl
  simp [pdf_to_audio, convBody, pageLoop_okPages, hfe, combineLoop_fragsFrom]

theorem c1_witness :
    ([['a'], ([] : List Char)].any nonBlank = true)
    ∧ (pdf_to_audio (.ok ([['a'], ([] : List Char)].map okPage)) (.ok ()) =
        (true, .content (orderedAudio [['a'], ([] : List Char)] 0))
      ∧ (orderedAudio [['a'], ([] : List Char)] 0).map Prod.snd =
          [['a'], ([] : List Char)].filter nonBlank
      ∧ List.Chain' (fun a b => a.1 < b.1) (orderedAudio [['a'], ([] : List Char)] 0)
      ∧ ((∀ t ∈ [['a'], ([] : List Char)], nonBlank t = true) →
          (orderedAudio [['a'], ([] : List Char)] 0).length =
            [['a'], ([] : List Char)].length)) :=
  ⟨by decide, c1_one_fragment_per_nonblank_page_in_order [['a'], []] (by decide)⟩

/-- C2: `pdf_to_audio` is a total function into `Bool × FileState` (it
never raises past its boundary), and whenever the `try:` body raises at
any point — parsing, extraction, synthesis, decoding or export — the
exception is caught and the call returns `false`, with the file state the
body left behind. -/
theorem c2_exception_means_false (parse : Except String (List Page))
    (exportB : Except String Unit) (e : String) (fs : FileState)
    (h : convBody parse exportB = (.error e, fs)) :
    pdf_to_audio parse exportB = (false, fs) := by
  simp [pdf_to_audio, h]

theorem c2_witness :
    convBody (.error "boom") (.ok ()) = (.error "boom", .absent)
    ∧ pdf_to_audio (.error "boom") (.ok ()) = (false, .absent) :=
  ⟨rfl, c2_exception_means_false (.error "boom") (.ok ()) "boom" .absent rfl⟩

/-- C3: a PDF all of whose pages have blank stripped text (including a
zero-page PDF) makes `pdf_to_audio` return `false` with the destination
never written; and in general every `false` result leaves the destination
absent, except when the failing step is the final export itself. -/
theorem c3_failure_leaves_no_output :
    (∀ (texts : List (List Char)) (exportB : Except String Unit),
      (∀ t ∈ texts, nonBlank t = false) →
      pdf_to_audio (.ok (texts.map okPage)) exportB = (false, .absent))
    ∧ ∀ (parse : Except String (List Page)) (exportB : Except String Unit),
      (pdf_to_audio parse exportB).1 = false →
      (pdf_to_audio parse exportB).2 = .absent
      ∨ ((pdf_to_audio parse exportB).2 = .corrupt ∧ ∃ e, exportB = .error e) := by
  constructor
  · intro texts exportB h
    have hnil : fragsFrom texts 0 = [] := fragsFrom_eq_nil texts 0 h
    simp [pdf_to_audio, convBody, pageLoop_okPages, hnil]
  · intro parse exportB h
    cases parse with
    | error e => left; rfl
    | ok pages =>
      cases hp : pageLoop pages 0 with
      | error e => left; simp [pdf_to_audio, convBody, hp]
      | ok frags =>
        cases hfe : frags.isEmpty with
        | true => left; simp [pdf_to_audio, convBody, hp, hfe]
        | false =>
          cases hc : combineLoop frags with
          | error e => left; simp [pdf_to_audio, convBody, hp, hfe, hc]
          | ok combined =>
            cases exportB with
            | error e =>
              right
              refine ⟨?_, e, rfl⟩
              simp [pdf_to_audio, convBody, hp, hfe, hc]
            | ok u =>
              exfalso
              simp [pdf_to_audio, convBody, hp, hfe, hc] at h

theorem c3_witness :
    pdf_to_audio (.ok ([[' ']].map okPage)) (.ok ()) = (false, .absent) :=
  (c3_failure_leaves_no_output).1 [[' ']] (.ok ()) (by decide)

/-- One batch work item, the tuple built at lines 157-161: its conversion
behaviours as consulted by the converter. -/
structure WorkItem where
  parse : Except String (List Page)
  exportB : Except String Unit
deriving DecidableEq

/-- `process_pdf` (lines 60-62): unpack a work item and run the
single-document converter, returning only its boolean. -/
def process_pdf (w : WorkItem) : Bool :=
  (pdf_to_audio w.parse w.exportB).1

/-- Value used for an out-of-range index; never reached when the
completion order is a permutation of the valid indices. -/
def noItem : WorkItem :=
  ⟨.error "", .ok ()⟩

/-- The pool workers of `pool.imap(process_pdf, process_args)` (lines
166-172) run independently; `order` lists the original item indices in
worker completion order.  Each completion carries its item's index and
`process_pdf` of that item. -/
def workerCompletions (items : List WorkItem) (order : List Nat) : List (Nat × Bool) :=
  order.map fun i => (i, process_pdf (items.getD i noItem))

/-- `list(pool.imap(...))`: `imap` yields results in input order,
buffering completions that arrive early — element `j` of the aggregated
list is the completion tagged with original index `j`. -/
def imapResults (items : List WorkItem) (order : List Nat) : List Bool :=
  (List.range items.length).map fun j =>
    match (workerCompletions items order).find? (fun c => c.1 == j) with
    | some c => c.2
    | none => false

/-- `successful = sum(results)` (line 175): each `True` counts one. -/
def successCount (results : List Bool) : Nat :=
  (results.filter (fun b => b)).length

theorem find_workerCompletions (items : List WorkItem) (order : List Nat) (j : Nat)
    (hj : j ∈ order) :
    (workerCompletions items order).find? (fun c => c.1 == j) =
      some (j, process_pdf (items.getD j noItem)) := by
  induction order with
  | nil => simp at hj
  | cons i rest ih =>
    simp only [workerCompletions, List.map_cons, List.find?_cons]
    by_cases hij : i = j
    · subst hij
      simp
    · have : (i == j) = false := by simp [hij]
      simp only [this]
      rcases List.mem_cons.mp hj with h | h
      · exact absurd h.symm hij
      · exact ih h

theorem map_getD_range {α β : Type} (l : List α) (d : α) (f : α → β) :
    (List.range l.length).map (fun j => f (l.getD j d)) = l.map f := by
  apply List.ext_getElem
  · simp
  · intro i h1 h2
    simp only [List.getElem_map, List.getElem_range]
    rw [List.getD_eq_getElem l d (by simpa using h2)]

theorem successCount_map_process (items : List WorkItem) :
    successCount (items.map process_pdf) = (items.filter process_pdf).length := by
  induction items with
  | nil => rfl
  | cons w rest ih =>
    simp only [List.map_cons, successCount, List.filter_cons] at *
    cases h : process_pdf w
    · simp only [h, Bool.false_eq_true, if_false]
      exact ih
    · simp only [h, if_true, List.length_cons]
      rw [ih]

/-- C4: whatever order the workers complete in (any permutation of the
item indices), the aggregated result list of `pool.imap` matches the
original input list position by position — result `i` is the converter's
boolean on item `i` — its length is the number of items, and the reported
success count is the number of items the converter succeeds on. -/
theorem c4_imap_results_in_input_order (items : List WorkItem) (order : List Nat)
    (h : order.Perm (List.range items.length)) :
    imapResults items order = items.map process_pdf
    ∧ (imapResults items order).length = items.length
    ∧ successCount (imapResults items order) = (items.filter process_pdf).length := by
  have hmain : imapResults items order = items.map process_pdf := by
    have hstep : imapResults items order =
        (List.range items.length).map (fun j => process_pdf (items.getD j noItem)) := by
      apply List.map_congr_left
      intro j hj
      have hjo : j ∈ order := h.mem_iff.mpr hj
      rw [find_workerCompletions items order j hjo]
    rw [hstep, map_getD_range]
  refine ⟨hmain, ?_, ?_⟩
  · rw [hmain, List.length_map]
  · rw [hmain, successCount_map_process]

theorem c4_witness :
    ([1, 0].Perm (List.range 2)
    ∧ imapResults [⟨.ok [okPage ['a']], .ok ()⟩, ⟨.error "bad", .ok ()⟩] [1, 0] =
        [⟨.ok [okPage ['a']], .ok ()⟩, ⟨.error "bad", .ok ()⟩].map process_pdf
    ∧ successCount (imapResults [⟨.ok [okPage ['a']], .ok ()⟩, ⟨.error "bad", .ok ()⟩] [1, 0]) =
        ([⟨.ok [okPage ['a']], .ok ()⟩, (⟨.error "bad", .ok ()⟩ : WorkItem)].filter process_pdf).length) :=
  ⟨by decide,
   (c4_imap_results_in_input_order [⟨.ok [okPage ['a']], .ok ()⟩, ⟨.error "bad", .ok ()⟩]
      [1, 0] (by decide)).1,
   (c4_imap_results_in_input_order [⟨.ok [okPage ['a']], .ok ()⟩, ⟨.error "bad", .ok ()⟩]
      [1, 0] (by decide)).2.2⟩

/-- CPython `str.endswith(suffix)`: the last `suffix.length` characters
equal `suffix`. -/
def endswith (s suffix : List Char) : Bool :=
  s.drop (s.length - suffix.length) == suffix

/-- CPython `str.lower()`, applied character by character. -/
def pyLower (s : List Char) : List Char :=
  s.map Char.toLower

/-- The literal `'.pdf'`. -/
def pdfExt : List Char := ['.', 'p', 'd', 'f']

/-- The literal `'.mp3'`. -/
def mp3Ext : List Char := ['.', 'm', 'p', '3']

/-- CPython `str.rfind(c)`: index of the last occurrence of `c`, `none`
standing for CPython's `-1`. -/
def rfind : List Char → Char → Option Nat
  | [], _ => none
  | a :: rest, c =>
    match rfind rest c with
    | some i => some (i + 1)
    | none => if a = c then some 0 else none

/-- CPython `posixpath.splitext(p)`: split at the last `'.'` when it lies
after the last `'/'` and the basename is not made only of leading dots up
to it; otherwise the extension is empty. -/
def splitext (p : List Char) : List Char × List Char :=
  match rfind p '.' with
  | none => (p, [])
  | some d =>
    let sepIdx := rfind p '/'
    let sepOk := match sepIdx with
      | none => true
      | some s => decide (s < d)
    if sepOk then
      let start := match sepIdx with
        | none => 0
        | some s => s + 1
      if ((p.take d).drop start).any (fun c => c != '.') then
        (p.take d, p.drop d)
      else (p, [])
    else (p, [])

/-- CPython `posixpath.basename(p)`: everything after the last `'/'`. -/
def basename (p : List Char) : List Char :=
  match rfind p '/' with
  | none => p
  | some s => p.drop (s + 1)

/-- CPython `posixpath.join(a, b)` for one extra component. -/
def joinPath (a b : List Char) : List Char :=
  if b.head? = some '/' then b
  else if a = [] ∨ a.getLast? = some '/' then a ++ b
  else a ++ '/' :: b

/-- The destination file of single-file mode (lines 129-130):
`os.path.join(output_folder, splitext(basename(args.file))[0] + '.mp3')`. -/
def singleDest (outputFolder filePath : List Char) : List Char :=
  joinPath outputFolder ((splitext (basename filePath)).1 ++ mp3Ext)

/-- The destination file of a batch work item (line 160):
`os.path.join(output_folder, splitext(filename)[0] + '.mp3')`. -/
def batchDest (outputFolder filename : List Char) : List Char :=
  joinPath outputFolder ((splitext filename).1 ++ mp3Ext)

/-- The single-file branch of `main` (lines 117-136): exit 1 when the
path is not an existing file or `args.file.lower()` does not end in
`.pdf`; otherwise convert (exiting 0 whatever the conversion returns).
The second component records the conversion attempt, if any: destination
path and converter result. -/
def singleFileMode (fileExists : Bool) (filePath outputFolder : List Char)
    (parse : Except String (List Page)) (exportB : Except String Unit) :
    Nat × Option (List Char × Bool) :=
  if fileExists = false then (1, none)
  else if endswith (pyLower filePath) pdfExt = false then (1, none)
  else (0, some (singleDest outputFolder filePath, (pdf_to_audio parse exportB).1))

/-- The batch filter of line 151:
`[f for f in os.listdir(input_folder) if f.endswith('.pdf')]`. -/
def batchFilter (files : List (List Char)) : List (List Char) :=
  files.filter (fun f => endswith f pdfExt)

/-- The batch branch of `main` (lines 139-176): exit 1 when no name ends
in `.pdf`; otherwise dispatch the work items to the pool (workers
completing in `order`) and report the summary (successes, total),
finishing with exit status 0. -/
def batchMode (files : List (List Char)) (behav : List Char → WorkItem)
    (order : List Nat) : Nat × Option (Nat × Nat) :=
  let pdfs := batchFilter files
  if pdfs.isEmpty then (1, none)
  else
    let results := imapResults (pdfs.map behav) order
    (0, some (successCount results, pdfs.length))

theorem endswith_append (l suffix : List Char) :
    endswith (l ++ suffix) suffix = true := by
  simp [endswith, List.length_append]

theorem rfind_append_some (l t : List Char) (c : Char) (i : Nat)
    (h : rfind t c = some i) :
    rfind (l ++ t) c = some (l.length + i) := by
  induction l with
  | nil => simpa using h
  | cons a l ih =>
    show (match rfind (l ++ t) c with
      | some j => some (j + 1)
      | none => if a = c then some 0 else none) = some ((a :: l).length + i)
    rw [ih]
    simp only [List.length_cons]
    congr 1
    omega

theorem rfind_append_none (l t : List Char) (c : Char) (h : rfind t c = none) :
    rfind (l ++ t) c = rfind l c := by
  induction l with
  | nil => simpa using h
  | cons a l ih =>
    show (match rfind (l ++ t) c with
      | some j => some (j + 1)
      | none => if a = c then some 0 else none) = rfind (a :: l) c
    rw [ih]
    rfl

theorem rfind_eq_none (s : List Char) (c : Char) (h : c ∉ s) : rfind s c = none := by
  induction s with
  | nil => rfl
  | cons a rest ih =>
    simp only [rfind]
    rw [ih fun hm => h (List.mem_cons_of_mem a hm)]
    rw [if_neg fun hac => h (by simp [hac])]

theorem splitext_stem_pdf (s : List Char)
    (hs : s.any (fun c => c != '.') = true) (hns : '/' ∉ s) :
    splitext (s ++ pdfExt) = (s, pdfExt) := by
  have hd : rfind (s ++ pdfExt) '.' = some s.length := by
    rw [rfind_append_some s pdfExt '.' 0 (by decide)]
    simp
  have hsep : rfind (s ++ pdfExt) '/' = none := by
    rw [rfind_append_none s pdfExt '/' (by decide)]
    exact rfind_eq_none s '/' hns
  have htk : (s ++ pdfExt).take s.length = s := List.take_left s pdfExt
  have hdr : (s ++ pdfExt).drop s.length = pdfExt := List.drop_left s pdfExt
  simp only [splitext, hd, hsep, htk, hdr, List.drop_zero, hs, if_true]

/-- C5: single-file mode exits with status 1 and attempts no conversion
when the path is not an existing file or when the (lowercased) name does
not end in `.pdf`; when both checks pass it attempts the conversion and
exits with status 0 whatever the conversion result — in particular for
both a succeeding and a failing converter. -/
theorem c5_single_file_exit_codes (fileExists : Bool) (filePath outputFolder : List Char)
    (parse : Except String (List Page)) (exportB : Except String Unit) :
    (fileExists = false →
      singleFileMode fileExists filePath outputFolder parse exportB = (1, none))
    ∧ (endswith (pyLower filePath) pdfExt = false →
      singleFileMode fileExists filePath outputFolder parse exportB = (1, none))
    ∧ (fileExists = true → endswith (pyLower filePath) pdfExt = true →
      singleFileMode fileExists filePath outputFolder parse exportB =
        (0, some (singleDest outputFolder filePath, (pdf_to_audio parse exportB).1))) := by
  refine ⟨?_, ?_, ?_⟩
  · intro h
    simp [singleFileMode, h]
  · intro h
    cases fileExists with
    | false => simp [singleFileMode]
    | true => simp [singleFileMode, h]
  · intro h1 h2
    simp [singleFileMode, h1, h2]

theorem c5_witness :
    singleFileMode true ['a', '.', 't', 'x', 't'] ['o'] (.error "x") (.ok ()) = (1, none)
    ∧ singleFileMode true ['a', '.', 'p', 'd', 'f'] ['o'] (.error "x") (.ok ()) =
        (0, some (singleDest ['o'] ['a', '.', 'p', 'd', 'f'], false)) :=
  ⟨(c5_single_file_exit_codes true ['a', '.', 't', 'x', 't'] ['o'] (.error "x")
      (.ok ())).2.1 (by decide),
   by
    have h := (c5_single_file_exit_codes true ['a', '.', 'p', 'd', 'f'] ['o'] (.error "x")
      (.ok ())).2.2 rfl (by decide)
    simpa [pdf_to_audio, convBody] using h⟩

/-- C6: the batch filter keeps exactly the directory entries whose names
end in `.pdf` compared case-sensitively (so `a.PDF` is not selected);
with no match the process exits with status 1, and with at least one
match it exits with status 0 no matter how the individual conversions
behave or in which order workers complete. -/
theorem c6_batch_filter_and_exit (files : List (List Char)) :
    (∀ f, f ∈ batchFilter files ↔ f ∈ files ∧ endswith f pdfExt = true)
    ∧ (batchFilter files = [] →
        ∀ behav order, batchMode files behav order = (1, none))
    ∧ (batchFilter files ≠ [] →
        ∀ behav order, (batchMode files behav order).1 = 0)
    ∧ batchFilter [['a', '.', 'P', 'D', 'F']] = [] := by
  refine ⟨?_, ?_, ?_, by decide⟩
  · intro f
    simp [batchFilter, List.mem_filter]
  · intro h behav order
    simp [batchMode, h]
  · intro h behav order
    have hfe : (batchFilter files).isEmpty = false := by
      cases hf : batchFilter files with
      | nil => exact absurd hf h
      | cons a l => rfl
    simp [batchMode, hfe]

theorem c6_witness :
    batchMode [['x']] (fun _ => noItem) [] = (1, none)
    ∧ (batchMode [['b', '.', 'p', 'd', 'f']] (fun _ => noItem) [0]).1 = 0 :=
  ⟨(c6_batch_filter_and_exit [['x']]).2.1 (by decide) (fun _ => noItem) [],
   (c6_batch_filter_and_exit [['b', '.', 'p', 'd', 'f']]).2.2.1 (by decide)
     (fun _ => noItem) [0]⟩

/-- C8: in both modes the destination is the output directory joined with
the input's base-name stem plus `.mp3`: for an input whose base name is
`s ++ ".pdf"` (with `s` a slash-free stem containing some non-dot
character), single-file mode and batch mode both derive the destination
`join outputFolder (s ++ ".mp3")`. -/
theorem c8_destination_stem_mp3 (outputFolder filePath s : List Char)
    (hb : basename filePath = s ++ pdfExt)
    (hs : s.any (fun c => c != '.') = true) (hns : '/' ∉ s) :
    singleDest outputFolder filePath = joinPath outputFolder (s ++ mp3Ext)
    ∧ batchDest outputFolder (s ++ pdfExt) = joinPath outputFolder (s ++ mp3Ext) := by
  constructor
  · rw [singleDest, hb, splitext_stem_pdf s hs hns]
  · rw [batchDest, splitext_stem_pdf s hs hns]

theorem c8_witness :
    singleDest ['o'] ['d', '/', 'a', '.', 'p', 'd', 'f'] =
      joinPath ['o'] (['a'] ++ mp3Ext)
    ∧ batchDest ['o'] (['a'] ++ pdfExt) = joinPath ['o'] (['a'] ++ mp3Ext) :=
  c8_destination_stem_mp3 ['o'] ['d', '/', 'a', '.', 'p', 'd', 'f'] ['a']
    (by decide) (by decide) (by decide)

/-- C9: the single-file suffix check lowercases the name first, so any
letter-case variant of `.pdf` passes it and a conversion attempt is made
(exit 0 with a recorded attempt), while the batch filter, which does not
lowercase, rejects `a.PDF`. -/
theorem c9_suffix_check_case_insensitive (stem v outputFolder : List Char)
    (parse : Except String (List Page)) (exportB : Except String Unit)
    (hv : pyLower v = pdfExt) :
    endswith (pyLower (stem ++ v)) pdfExt = true
    ∧ singleFileMode true (stem ++ v) outputFolder parse exportB =
        (0, some (singleDest outputFolder (stem ++ v), (pdf_to_audio parse exportB).1))
    ∧ endswith ['a', '.', 'P', 'D', 'F'] pdfExt = false := by
  have hend : endswith (pyLower (stem ++ v)) pdfExt = true := by
    rw [pyLower, List.map_append]
    rw [show v.map Char.toLower = pdfExt from hv]
    exact endswith_append (stem.map Char.toLower) pdfExt
  refine ⟨hend, ?_, by decide⟩
  simp [singleFileMode, hend]

theorem c9_witness :
    endswith (pyLower (['a'] ++ ['.', 'P', 'D', 'F'])) pdfExt = true
    ∧ singleFileMode true (['a'] ++ ['.', 'P', 'D', 'F']) ['o'] (.error "x") (.ok ()) =
        (0, some (singleDest ['o'] (['a'] ++ ['.', 'P', 'D', 'F']),
          (pdf_to_audio (.error "x") (.ok ())).1))
    ∧ endswith ['a', '.', 'P', 'D', 'F'] pdfExt = false :=
  c9_suffix_check_case_insensitive ['a'] ['.', 'P', 'D', 'F'] ['o'] (.error "x")
    (.ok ()) (by decide)

/-- A directory entry as seen by `os.listdir` / `os.path.isfile` /
`os.unlink` inside `cleanup_output_folder`: its name, whether the joined
path is a regular file (subdirectories give `false`), and the behaviour
of `os.unlink` on it. -/
structure Entry where
  name : List Char
  isFile : Bool
  unlink : Except String Unit
deriving DecidableEq

/-- The deletion loop of `cleanup_output_folder` (lines 70-74): for each
listed name in order, `os.unlink` it when it is a regular file, skipping
everything else.  Returns the names actually deleted; a raised `unlink`
exception aborts the remainder of the loop (flag `true`). -/
def cleanupLoop : List Entry → List (List Char) × Bool
  | [] => ([], false)
  | e :: rest =>
    if e.isFile then
      match e.unlink with
      | .error _ => ([], true)
      | .ok _ =>
        let r := cleanupLoop rest
        (e.name :: r.1, r.2)
    else cleanupLoop rest

/-- `cleanup_output_folder` (lines 64-77): `os.listdir` then the deletion
loop, the whole inside `try: ... except Exception:` — any exception (a
failed listing or a failed `unlink`) is logged and swallowed.  Total: the
caller always receives the list of deleted names, never an exception. -/
def cleanup_output_folder (listing : Except String (List Entry)) : List (List Char) :=
  match listing with
  | .error _ => []
  | .ok entries => (cleanupLoop entries).1

theorem cleanupLoop_all_ok (entries : List Entry)
    (h : ∀ e ∈ entries, e.unlink = .ok ()) :
    cleanupLoop entries = ((entries.filter (fun e => e.isFile)).map Entry.name, false) := by
  induction entries with
  | nil => rfl
  | cons e rest ih =>
    have he : e.unlink = .ok () := h e (List.mem_cons_self e rest)
    have hrest := ih fun u hu => h u (List.mem_cons_of_mem e hu)
    simp only [cleanupLoop, List.filter_cons]
    cases hf : e.isFile with
    | false => simpa [hf] using hrest
    | true => simp [hf, he, hrest]

theorem cleanupLoop_mem (entries : List Entry) (n : List Char)
    (h : n ∈ (cleanupLoop entries).1) :
    ∃ e ∈ entries, e.isFile = true ∧ e.name = n := by
  induction entries with
  | nil => simp [cleanupLoop] at h
  | cons e rest ih =>
    simp only [cleanupLoop] at h
    cases hf : e.isFile with
    | false =>
      rw [hf] at h
      simp only [Bool.false_eq_true, if_false] at h
      obtain ⟨u, hu, hprop⟩ := ih h
      exact ⟨u, List.mem_cons_of_mem e hu, hprop⟩
    | true =>
      rw [hf] at h
      simp only [if_true] at h
      cases hu : e.unlink with
      | error msg => rw [hu] at h; simp at h
      | ok v =>
        rw [hu] at h
        simp only [List.mem_cons] at h
        rcases h with h | h
        · exact ⟨e, List.mem_cons_self e rest, hf, h.symm⟩
        · obtain ⟨u, hmem, hprop⟩ := ih h
          exact ⟨u, List.mem_cons_of_mem e hmem, hprop⟩

/-- C7: when every `unlink` succeeds, the cleanup deletes exactly the
regular files directly inside the output directory, in listing order; on
any listing at all it only ever deletes names of regular-file entries of
that listing — it never deletes (nor descends into) a subdirectory — and
it always returns normally, never propagating an exception. -/
theorem c7_cleanup_deletes_exactly_files (entries : List Entry)
    (h : ∀ e ∈ entries, e.unlink = .ok ()) :
    cleanup_output_folder (.ok entries) =
      (entries.filter (fun e => e.isFile)).map Entry.name
    ∧ ∀ (listing : Except String (List Entry)) (n : List Char),
        n ∈ cleanup_output_folder listing →
        ∃ ents, listing = .ok ents ∧ ∃ e ∈ ents, e.isFile = true ∧ e.name = n := by
  constructor
  · simp [cleanup_output_folder, cleanupLoop_all_ok entries h]
  · intro listing n hn
    cases listing with
    | error msg => simp [cleanup_output_folder] at hn
    | ok ents =>
      exact ⟨ents, rfl, cleanupLoop_mem ents n hn⟩

theorem c7_witness :
    cleanup_output_folder
        (.ok [⟨['a'], true, .ok ()⟩, ⟨['d'], false, .ok ()⟩, ⟨['b'], true, .ok ()⟩]) =
      ([⟨['a'], true, .ok ()⟩, ⟨['d'], false, .ok ()⟩,
        (⟨['b'], true, .ok ()⟩ : Entry)].filter (fun e => e.isFile)).map Entry.name :=
  (c7_cleanup_deletes_exactly_files
    [⟨['a'], true, .ok ()⟩, ⟨['d'], false, .ok ()⟩, ⟨['b'], true, .ok ()⟩]
    (by intro e he; fin_cases he <;> rfl)).1

theorem cleanupLoop_aborts (pre post : List Entry) (bad : Entry) (msg : String)
    (hpre : ∀ e ∈ pre, e.unlink = .ok ()) (hfile : bad.isFile = true)
    (hbad : bad.unlink = .error msg) :
    cleanupLoop (pre ++ bad :: post) =
      ((pre.filter (fun e => e.isFile)).map Entry.name, true) := by
  induction pre with
  | nil => simp [cleanupLoop, hfile, hbad]
  | cons e rest ih =>
    have he : e.unlink = .ok () := hpre e (List.mem_cons_self e rest)
    have hrest := ih fun u hu => hpre u (List.mem_cons_of_mem e hu)
    simp only [List.cons_append, cleanupLoop, List.filter_cons]
    cases hf : e.isFile with
    | false => simpa [hf] using hrest
    | true => simp [hf, he, hrest]

/-- C10: the cleanup is not atomic per file — when `os.unlink` raises on
one regular file, the loop is abandoned there, so only the regular files
listed before the failing one get deleted and every later file is left in
place; the exception itself is still swallowed (the operation returns the
deleted names normally). -/
theorem c10_cleanup_abandons_rest_after_failure (pre post : List Entry)
    (bad : Entry) (msg : String)
    (hpre : ∀ e ∈ pre, e.unlink = .ok ()) (hfile : bad.isFile = true)
    (hbad : bad.unlink = .error msg) :
    cleanup_output_folder (.ok (pre ++ bad :: post)) =
      (pre.filter (fun e => e.isFile)).map Entry.name := by
  simp [cleanup_output_folder, cleanupLoop_aborts pre post bad msg hpre hfile hbad]

theorem c10_witness :
    cleanup_output_folder
        (.ok [⟨['a'], true, .ok ()⟩, ⟨['b'], true, .error "eperm"⟩,
              ⟨['c'], true, .ok ()⟩]) =
      ([(⟨['a'], true, .ok ()⟩ : Entry)].filter (fun e => e.isFile)).map Entry.name :=
  c10_cleanup_abandons_rest_after_failure [⟨['a'], true, .ok ()⟩]
    [⟨['c'], true, .ok ()⟩] ⟨['b'], true, .error "eperm"⟩ "eperm"
    (by intro e he; fin_cases he; rfl) rfl rfl

end PdfToAudio
